import Mathlib

/-!
Shallow embedding of the pattern-matching engine from the repository
(`Advanced Pattern Matching Suite.py`, `DNA motif.py`, `Pattern matcher i.py`).

Python strings are embedded as `String`/`List Char`; the Python `while`/recursive
functions are embedded as fuel-indexed structural recursions (the fuel passed by
the wrappers is proved sufficient by the congruence lemmas below, so the fuel
never runs out on the wrappers' calls).  `float('inf')` is embedded as `⊤ : ℕ∞`.
Fallible operations (`patterns[0]`, `multiprocessing.Pool(n)` validation) are
embedded with `Except`.
-/

namespace PatternSuite

/-- Embedding of the `MatchResult` dataclass.  The `score` field is a Python
`float` in the source, but every value ever stored in it is a non-negative
mismatch count, so it is embedded as `Nat`. -/
structure MatchResult where
  start_pos : Nat
  end_pos : Nat
  score : Nat
  pattern_type : String
  explanation : String
deriving Repr, DecidableEq

/-- Recursive core of `AdvancedPatternMatcher.wildcard_match` (and of the
standalone `wildcard_match.dfs` in `Pattern matcher i.py`, which has the same
recurrence): positions `i` into the text and `j` into the pattern, with
`?` matching exactly one symbol and `*` matching zero or more.  The first
argument of the recursion is fuel for the Python call stack; the wrappers pass
enough fuel, and the memoisation of the source is value-irrelevant (proved
below), so it is dropped here. -/
def wcGo (t p : List Char) : Nat → Nat → Nat → Bool
  | 0, _, _ => false
  | fuel+1, i, j =>
    if i = t.length ∧ j = p.length then true
    else if i = t.length then (p.drop j).all (fun c => c = '*')
    else if j = p.length then false
    else if p.getD j ' ' = '*' then
      wcGo t p fuel i (j+1) || (decide (i < t.length) && wcGo t p fuel (i+1) j)
    else if p.getD j ' ' = '?' ∨ p.getD j ' ' = t.getD i ' ' then
      wcGo t p fuel (i+1) (j+1)
    else false

/-- Embedding of `wildcard_match(text, pattern, i, 0)` as used by
`analyze_all` and the demo loops: match starting at text offset `i`. -/
def wildcard_match_from (text pattern : String) (i : Nat) : Bool :=
  wcGo text.data pattern.data (text.length + pattern.length + 1) i 0

/-- Embedding of the standalone `wildcard_match(text, pattern)` of
`Pattern matcher i.py` (i.e. `dfs(0, 0)`), identical to the matcher method
started at `(0, 0)`. -/
def wildcard_match (text pattern : String) : Bool :=
  wildcard_match_from text pattern 0

/-- Recursive core shared by `AdvancedPatternMatcher.motif_distance` and
`find_dna_motifs.min_mismatches` (the two sources have literally the same
recurrence): minimum number of substitution mismatches needed to consume
`motif[j:]` against `dna[i:]`, where a step may also skip one dna symbol.
`float('inf')` becomes `⊤ : ℕ∞`.  Fuel-indexed as above. -/
def mmGo (dna motif : List Char) : Nat → Nat → Nat → ℕ∞
  | 0, _, _ => ⊤
  | fuel+1, i, j =>
    if j = motif.length then 0
    else if dna.length < i + (motif.length - j) then ⊤
    else
      let mismatch : ℕ∞ := if dna.getD i ' ' = motif.getD j ' ' then 0 else 1
      min (mismatch + mmGo dna motif fuel (i+1) (j+1)) (mmGo dna motif fuel (i+1) j)

/-- Embedding of `find_dna_motifs.min_mismatches(i, j)` (equivalently
`AdvancedPatternMatcher.motif_distance(dna, motif, i, j)`). -/
def min_mismatches (dna motif : String) (i j : Nat) : ℕ∞ :=
  mmGo dna.data motif.data (dna.length + 1) i j

/-- Embedding of `find_dna_motifs(dna, motif, max_mismatches)`: scan every
start in `range(n - m + 1)` and keep the pairs `(start, mismatches)` whose
minimum mismatch count is at most the budget.  Python `range(n - m + 1)`
is empty when `m > n`, which coincides with `List.range (n + 1 - m)` under
truncated subtraction. -/
def find_dna_motifs (dna motif : String) (max_mismatches : Nat) : List (Nat × ℕ∞) :=
  (List.range (dna.length + 1 - motif.length)).filterMap fun start =>
    let mismatches := min_mismatches dna motif start 0
    if mismatches ≤ (max_mismatches : ℕ∞) then some (start, mismatches) else none

/-- Loop of the prefix-table construction in `kmp_search` (the `while i <
len(pattern)` loop over state `(lps, length, i)`), fuel-indexed. -/
def lpsGo (p : List Char) : Nat → List Nat → Nat → Nat → List Nat
  | 0, lps, _, _ => lps
  | fuel+1, lps, length, i =>
    if i < p.length then
      if p.getD i ' ' = p.getD length ' ' then
        lpsGo p fuel (lps.set i (length+1)) (length+1) (i+1)
      else if length ≠ 0 then
        lpsGo p fuel lps (lps.getD (length-1) 0) i
      else
        lpsGo p fuel (lps.set i 0) length (i+1)
    else lps

/-- The fully built prefix table `lps` of `kmp_search` (initially
`[0] * len(pattern)`, `length = 0`, `i = 1`). -/
def computeLps (p : List Char) : List Nat :=
  lpsGo p (2 * p.length + 1) (List.replicate p.length 0) 0 1

/-- Search loop of `kmp_search` (the `while i < len(text)` loop over state
`(i, j, matches)`), fuel-indexed.  One Python iteration may advance on a
character match and then immediately fall back on the updated positions, which
is mirrored by computing the updated `i`, `j` first. -/
def kmpGo (t p : List Char) (lps : List Nat) : Nat → Nat → Nat → List Nat → List Nat
  | 0, _, _, acc => acc
  | fuel+1, i, j, acc =>
    if i < t.length then
      let i2 := if p.getD j ' ' = t.getD i ' ' then i + 1 else i
      let j2 := if p.getD j ' ' = t.getD i ' ' then j + 1 else j
      if j2 = p.length then
        kmpGo t p lps fuel i2 (lps.getD (j2-1) 0) (acc ++ [i2 - j2])
      else if i2 < t.length ∧ p.getD j2 ' ' ≠ t.getD i2 ' ' then
        if j2 ≠ 0 then kmpGo t p lps fuel i2 (lps.getD (j2-1) 0) acc
        else kmpGo t p lps fuel (i2+1) j2 acc
      else kmpGo t p lps fuel i2 j2 acc
    else acc

/-- Embedding of `AdvancedPatternMatcher.kmp_search(text, pattern)`:
guard for empty text or pattern, build the prefix table, run the scan. -/
def kmp_search (text pattern : String) : List Nat :=
  if pattern.data = [] ∨ text.data = [] then []
  else kmpGo text.data pattern.data (computeLps pattern.data)
    (2 * text.length + 1) 0 0 []

/-- Position-wise mismatch count of `sum(c1 != c2 for c1, c2 in zip(snippet,
pattern))`: `zip` truncates to the shorter list, exactly as in Python. -/
def hammingZip (s p : List Char) : Nat :=
  (List.zip s p).countP fun cc => cc.1 ≠ cc.2

/-- Embedding of `AdvancedPatternMatcher.fuzzy_regex_search(text, pattern,
max_distance)`: slide a `len(pattern)`-sized window over every start offset in
`range(len(text) - len(pattern) + 1)` and report windows within distance
`max_distance`. -/
def fuzzy_regex_search (text pattern : String) (max_distance : Nat) : List MatchResult :=
  (List.range (text.length + 1 - pattern.length)).filterMap fun i =>
    let snippet := (text.data.drop i).take pattern.length
    let distance := hammingZip snippet pattern.data
    if distance ≤ max_distance then
      some ⟨i, i + pattern.length, distance, "fuzzy_regex",
            toString distance ++ " mismatches"⟩
    else none

/-- Report assembled by `analyze_all`: one entry per algorithm tag. -/
structure AnalyzeReport where
  wildcard : List (Nat × String)
  motifs : List (Nat × Nat)
  kmp : List (String × List Nat)
  fuzzy_regex : List MatchResult
deriving Repr, DecidableEq

/-- Embedding of `AdvancedPatternMatcher.analyze_all(text, patterns,
max_motif_dist)`.  The source evaluates `patterns[0]` for the fuzzy pass, which
raises `IndexError` when the pattern list is empty; that failure is embedded as
`Except.error`.  The wildcard pass records the snippet
`f"{text[start:start+10]}..."`, the motif pass records `(start, int(dist))`,
the KMP pass maps every pattern to its exact matches, and the fuzzy pass runs
on `patterns[0]` with the default `max_distance = 2`. -/
def analyze_all (text : String) (patterns : List String) (max_motif_dist : Nat) :
    Except String AnalyzeReport :=
  match patterns with
  | [] => Except.error "IndexError: list index out of range"
  | p0 :: _ =>
    Except.ok
      { wildcard := patterns.flatMap fun p =>
          (List.range text.length).filterMap fun start =>
            if wildcard_match_from text p start then
              some (start, String.mk ((text.data.drop start).take 10) ++ "...")
            else none
        motifs := patterns.flatMap fun p =>
          (List.range (text.length + 1 - p.length)).filterMap fun start =>
            let dist := min_mismatches text p start 0
            if dist ≤ (max_motif_dist : ℕ∞) then
              some (start, dist.untop' 0)
            else none
        kmp := patterns.map fun p => (p, kmp_search text p)
        fuzzy_regex := fuzzy_regex_search text p0 2 }

/-- Embedding of `AdvancedPatternMatcher.parallel_search(texts, pattern,
n_workers)`.  `multiprocessing.Pool(n)` raises `ValueError("Number of processes
must be at least 1")` for `n ≤ 0`; for a valid pool, `pool.starmap` applies
`kmp_search` to the argument tuples and returns the results in argument order,
which is an order-preserving map.  The worker count therefore only gates
validity and never affects the value. -/
def parallel_search (texts : List String) (pattern : String) (n_workers : Int) :
    Except String (List (List Nat)) :=
  if n_workers < 1 then Except.error "Number of processes must be at least 1"
  else Except.ok (texts.map fun t => kmp_search t pattern)


/-- Pointwise matching: the first `k` symbols of `p` occur in `t` starting at
offset `s` (out-of-range reads are compared through `getD`, and are always
in range at every use site). -/
def matchAt (t p : List Char) (s k : Nat) : Prop :=
  ∀ x, x < k → t.getD (s + x) ' ' = p.getD x ' '

/-- The prefix of `p` of length `k` is a suffix of the prefix of `t` of
length `i`. -/
def sufpre (t p : List Char) (k i : Nat) : Prop :=
  k ≤ i ∧ matchAt t p (i - k) k

/-- Correctness statement for one prefix-table entry: `v` is the longest
proper border of the prefix of `p` of length `k + 1`. -/
def LpsEntry (p : List Char) (k v : Nat) : Prop :=
  v ≤ k ∧ matchAt p p (k + 1 - v) v ∧
  ∀ b, b ≤ k → matchAt p p (k + 1 - b) b → b ≤ v

/-- Full correctness of a prefix table. -/
def LpsOk (p : List Char) (lps : List Nat) : Prop :=
  lps.length = p.length ∧ ∀ k, k < p.length → LpsEntry p k (lps.getD k 0)

/-- Boolean occurrence test used to state KMP correctness: the Python slice
comparison `text[s:s+len(p)] == p`. -/
def occb (t p : List Char) (s : Nat) : Bool :=
  decide ((t.drop s).take p.length = p)

/-- Embedding of the mutable state of an `AdvancedPatternMatcher` instance:
the `stats` dictionary created by `__init__` plus the `lru_cache` tables that
decorate `wildcard_match` and `motif_distance` (keyed by the full argument
tuples; cache eviction only removes entries, so every reachable cache state is
covered by quantifying over sound caches). -/
structure MatcherState where
  calls : Nat
  cache_hits : Nat
  total_time : Nat
  wc_cache : List ((List Char × List Char × Nat × Nat) × Bool)
  motif_cache : List ((List Char × List Char × Nat × Nat) × ℕ∞)

/-- Canonical pure value of the wildcard recursion (fuel chosen sufficient). -/
def wildcard_pure (t p : List Char) (i j : Nat) : Bool :=
  wcGo t p (t.length - i + (p.length - j) + 1) i j

/-- Canonical pure value of the motif recursion (fuel chosen sufficient). -/
def motif_pure (dna motif : List Char) (i j : Nat) : ℕ∞ :=
  mmGo dna motif (dna.length - i + 1) i j

/-- Stateful embedding of the memoised method
`AdvancedPatternMatcher.wildcard_match`: consult the cache first; on a miss,
bump the `calls` counter, run the body (whose recursive calls thread the
state), and record the result in the cache. -/
def wcST (t p : List Char) : Nat → Nat → Nat → MatcherState → Bool × MatcherState
  | 0, _, _, st => (false, st)
  | fuel+1, i, j, st =>
    match st.wc_cache.lookup (t, p, i, j) with
    | some v => (v, st)
    | none =>
      let st1 := { st with calls := st.calls + 1 }
      let rv :=
        if i = t.length ∧ j = p.length then (true, st1)
        else if i = t.length then ((p.drop j).all (fun c => c = '*'), st1)
        else if j = p.length then (false, st1)
        else if p.getD j ' ' = '*' then
          let r1 := wcST t p fuel i (j+1) st1
          if r1.1 then (true, r1.2)
          else if i < t.length then wcST t p fuel (i+1) j r1.2
          else (false, r1.2)
        else if p.getD j ' ' = '?' ∨ p.getD j ' ' = t.getD i ' ' then
          wcST t p fuel (i+1) (j+1) st1
        else (false, st1)
      (rv.1, { rv.2 with wc_cache := ((t, p, i, j), rv.1) :: rv.2.wc_cache })

/-- Stateful embedding of the memoised method
`AdvancedPatternMatcher.motif_distance` (no counter update in its body). -/
def mdST (dna motif : List Char) : Nat → Nat → Nat → MatcherState → ℕ∞ × MatcherState
  | 0, _, _, st => (⊤, st)
  | fuel+1, i, j, st =>
    match st.motif_cache.lookup (dna, motif, i, j) with
    | some v => (v, st)
    | none =>
      let rv :=
        if j = motif.length then ((0:ℕ∞), st)
        else if dna.length < i + (motif.length - j) then ((⊤:ℕ∞), st)
        else
          let mismatch : ℕ∞ := if dna.getD i ' ' = motif.getD j ' ' then 0 else 1
          let r1 := mdST dna motif fuel (i+1) (j+1) st
          let r2 := mdST dna motif fuel (i+1) j r1.2
          (min (mismatch + r1.1) r2.1, r2.2)
      (rv.1, { rv.2 with motif_cache := ((dna, motif, i, j), rv.1) :: rv.2.motif_cache })

/-- Soundness of a wildcard cache: every stored entry is the pure value of
its key. -/
def SoundW (c : List ((List Char × List Char × Nat × Nat) × Bool)) : Prop :=
  ∀ t p i j v, c.lookup (t, p, i, j) = some v → v = wildcard_pure t p i j

/-- Soundness of a motif cache: every stored entry is the pure value of its
key. -/
def SoundM (c : List ((List Char × List Char × Nat × Nat) × ℕ∞)) : Prop :=
  ∀ dna motif i j v, c.lookup (dna, motif, i, j) = some v → v = motif_pure dna motif i j

/-- The matcher method `wildcard_match(text, pattern, i, j)` with its hidden
state (diagnostic counter and memo cache) made explicit. -/
def wildcard_match_st (text pattern : String) (i j : Nat) (st : MatcherState) :
    Bool × MatcherState :=
  wcST text.data pattern.data (text.length + pattern.length + 1) i j st

/-- The matcher method `motif_distance(dna, motif, i, j)` with its hidden
memo cache made explicit. -/
def motif_distance_st (dna motif : String) (i j : Nat) (st : MatcherState) :
    ℕ∞ × MatcherState :=
  mdST dna.data motif.data (dna.length + 1) i j st

-- ===== Theorems =====

theorem matchAt_zero (t p : List Char) (s : Nat) : matchAt t p s 0 :=
  fun x hx => absurd hx (Nat.not_lt_zero x)

theorem matchAt_extend {t p : List Char} {s k : Nat}
    (h : matchAt t p s k) (hc : t.getD (s + k) ' ' = p.getD k ' ') :
    matchAt t p s (k+1) := by
  intro x hx
  rcases Nat.lt_or_ge x k with h2 | h2
  · exact h x h2
  · have hxk : x = k := by omega
    subst hxk; exact hc

theorem matchAt_shrink {t p : List Char} {s k : Nat}
    (h : matchAt t p s (k+1)) :
    matchAt t p s k ∧ t.getD (s+k) ' ' = p.getD k ' ' :=
  ⟨fun x hx => h x (by omega), h k (by omega)⟩

theorem matchAt_compose {t p : List Char} {s m d k : Nat}
    (h1 : matchAt t p s m) (h2 : matchAt p p d k) (h3 : d + k ≤ m) :
    matchAt t p (s + d) k := by
  intro x hx
  have e1 := h2 x hx
  have e2 := h1 (d + x) (by omega)
  rw [Nat.add_assoc, e2, e1]

theorem sufpre_zero (t p : List Char) (i : Nat) : sufpre t p 0 i :=
  ⟨Nat.zero_le i, matchAt_zero t p _⟩

theorem sufpre_extend {t p : List Char} {k i : Nat}
    (h : sufpre t p k i) (hc : t.getD i ' ' = p.getD k ' ') :
    sufpre t p (k+1) (i+1) := by
  obtain ⟨hk, hm⟩ := h
  refine ⟨by omega, ?_⟩
  rw [show i + 1 - (k+1) = i - k from by omega]
  refine matchAt_extend hm ?_
  rw [show i - k + k = i from by omega]
  exact hc

theorem sufpre_shrink {t p : List Char} {k i : Nat}
    (h : sufpre t p (k+1) (i+1)) :
    sufpre t p k i ∧ t.getD i ' ' = p.getD k ' ' := by
  obtain ⟨hk, hm⟩ := h
  rw [show i + 1 - (k+1) = i - k from by omega] at hm
  obtain ⟨hm1, hm2⟩ := matchAt_shrink hm
  rw [show i - k + k = i from by omega] at hm2
  exact ⟨⟨by omega, hm1⟩, hm2⟩

theorem sufpre_compose {t p : List Char} {k b i : Nat}
    (h : sufpre t p k i) (hb : matchAt p p (k - b) b) (hbk : b ≤ k) :
    sufpre t p b i := by
  obtain ⟨hk, hm⟩ := h
  refine ⟨by omega, ?_⟩
  have hcomp := matchAt_compose hm hb (by omega)
  rwa [show i - k + (k - b) = i - b from by omega] at hcomp

theorem border_of_two {t p : List Char} {b k i : Nat}
    (h1 : sufpre t p b i) (h2 : sufpre t p k i) (hbk : b ≤ k) :
    matchAt p p (k - b) b := by
  intro x hx
  have hki := h2.1
  have hbi := h1.1
  have e1 := h2.2 (k - b + x) (by omega)
  have e2 := h1.2 x hx
  rw [show i - k + (k - b + x) = i - b + x from by omega] at e1
  rw [← e1, e2]

theorem getD_set_ne (l : List Nat) (i v k d : Nat) (h : i ≠ k) :
    (l.set i v).getD k d = l.getD k d := by
  simp [List.getD, List.getElem?_set_ne h]

theorem getD_set_self (l : List Nat) (i v d : Nat) (h : i < l.length) :
    (l.set i v).getD i d = v := by
  simp [List.getD, List.getElem?_set_self, h]

theorem getD_replicate (n k : Nat) : (List.replicate n (0:Nat)).getD k 0 = 0 := by
  rcases Nat.lt_or_ge k n with h | h
  · rw [List.getD_eq_getElem _ _ (by simpa using h)]
    simp
  · rw [List.getD_eq_default]
    simp [h]

/-- Fuel congruence for the wildcard recursion: any two sufficient fuels give
the same answer, so the wrappers' fuel choice is canonical. -/
theorem wcGo_congr (t p : List Char) :
    ∀ f1 f2 i j, i ≤ t.length → j ≤ p.length →
    t.length - i + (p.length - j) < f1 → t.length - i + (p.length - j) < f2 →
    wcGo t p f1 i j = wcGo t p f2 i j := by
  intro f1
  induction f1 with
  | zero => intro f2 i j _ _ h1 _; omega
  | succ f ih =>
    intro f2 i j hi hj h1 h2
    obtain ⟨g, rfl⟩ : ∃ g, f2 = g + 1 := ⟨f2 - 1, by omega⟩
    simp only [wcGo]
    split_ifs with hc1 hc2 hc3 hc4 hc5
    · rfl
    · rfl
    · rfl
    · have hjlt : j < p.length := by
        rcases Nat.lt_or_ge j p.length with h | h
        · exact h
        · exact absurd (Nat.le_antisymm hj h) hc3
      have hilt : i < t.length := by
        rcases Nat.lt_or_ge i t.length with h | h
        · exact h
        · exact absurd (Nat.le_antisymm hi h) (by simpa using hc2)
      rw [ih g i (j+1) hi hjlt (by omega) (by omega),
          ih g (i+1) j (by omega) hj (by omega) (by omega)]
    · have hjlt : j < p.length := by
        rcases Nat.lt_or_ge j p.length with h | h
        · exact h
        · exact absurd (Nat.le_antisymm hj h) hc3
      have hilt : i < t.length := by
        rcases Nat.lt_or_ge i t.length with h | h
        · exact h
        · exact absurd (Nat.le_antisymm hi h) (by simpa using hc2)
      exact ih g (i+1) (j+1) hilt hjlt (by omega) (by omega)
    · rfl

/-- With sufficient fuel, a pattern consisting of the single symbol `*`
matches from any in-range start position. -/
theorem wcGo_star (t : List Char) :
    ∀ fuel i, i ≤ t.length → t.length - i < fuel →
    wcGo t ['*'] fuel i 0 = true := by
  intro fuel
  induction fuel with
  | zero => intro i _ h1; omega
  | succ f ih =>
    intro i hi h1
    by_cases hn : i = t.length
    · simp [wcGo, hn]
    · have hilt : i < t.length := Nat.lt_of_le_of_ne hi hn
      have hrec := ih (i+1) hilt (by omega)
      simp [wcGo, hn, hilt, hrec]

theorem wildcard_empty_text (p : String) :
    wildcard_match "" p = p.data.all (fun c => c = '*') := by
  show wcGo "".data p.data ("".length + p.length + 1) 0 0 = _
  rw [show ("".length + p.length + 1) = (0 + p.length) + 1 from rfl]
  rw [wcGo]
  by_cases hp : p.data.length = 0
  · have : p.data = [] := List.eq_nil_of_length_eq_zero hp
    simp [this]
  · rw [String.length_data] at hp
    simp [hp, Ne.symm hp]

theorem wildcard_empty_pattern (t : String) (h : t.data ≠ []) :
    wildcard_match t "" = false := by
  have hn : t.data.length ≠ 0 := by
    simpa using fun h2 => h (List.eq_nil_of_length_eq_zero h2)
  rw [String.length_data] at hn
  show wcGo t.data "".data (t.length + "".length + 1) 0 0 = _
  rw [show (t.length + "".length + 1) = (t.length + 0) + 1 from rfl]
  rw [wcGo]
  simp [Ne.symm hn]

theorem mmGo_congr (dna motif : List Char) :
    ∀ f1 f2 i j, j ≤ motif.length → dna.length - i < f1 → dna.length - i < f2 →
    mmGo dna motif f1 i j = mmGo dna motif f2 i j := by
  intro f1
  induction f1 with
  | zero => intro f2 i j _ h1 _; omega
  | succ f ih =>
    intro f2 i j hj h1 h2
    obtain ⟨g, rfl⟩ : ∃ g, f2 = g + 1 := ⟨f2 - 1, by omega⟩
    rw [mmGo, mmGo]
    split_ifs with hc1 hc2
    · rfl
    · rfl
    all_goals {
      have hjlt : j < motif.length := Nat.lt_of_le_of_ne hj hc1
      have hilt : i < dna.length := by omega
      simp only [ih g (i+1) (j+1) hjlt (by omega) (by omega),
                 ih g (i+1) j hj (by omega) (by omega)] }

theorem mmGo_le_skip (dna motif : List Char) (f i j : Nat)
    (hj : j ≠ motif.length) (hg : ¬ dna.length < i + (motif.length - j)) :
    mmGo dna motif (f+1) i j ≤ mmGo dna motif f (i+1) j := by
  rw [mmGo, if_neg hj, if_neg hg]
  exact min_le_right _ _

theorem mmGo_le_match0 (dna motif : List Char) (f i j : Nat)
    (hj : j ≠ motif.length) (hg : ¬ dna.length < i + (motif.length - j))
    (hc : dna.getD i ' ' = motif.getD j ' ') :
    mmGo dna motif (f+1) i j ≤ mmGo dna motif f (i+1) (j+1) := by
  rw [mmGo, if_neg hj, if_neg hg]
  refine le_trans (min_le_left _ _) ?_
  show (if dna.getD i ' ' = motif.getD j ' ' then (0:ℕ∞) else 1) + _ ≤ _
  rw [if_pos hc, zero_add]

theorem mmGo_base (dna motif : List Char) (f i j : Nat) (hj : j = motif.length) :
    mmGo dna motif (f+1) i j = 0 := by
  rw [mmGo, if_pos hj]

/-- Claim C6: the recursive scorer shared by `find_dna_motifs.min_mismatches`
and `motif_distance` satisfies the stated recurrence: 0 once the motif is
consumed, unreachable (`⊤`) when too little corpus remains, otherwise the
minimum of align-and-advance-both and skip-one-corpus-symbol. -/
theorem claim_C6 (dna motif : String) (i j : Nat) (hj : j ≤ motif.length) :
    min_mismatches dna motif i j =
      if j = motif.length then 0
      else if dna.length < i + (motif.length - j) then ⊤
      else
        min ((if dna.data.getD i ' ' = motif.data.getD j ' ' then 0 else 1)
              + min_mismatches dna motif (i+1) (j+1))
            (min_mismatches dna motif (i+1) j) := by
  show mmGo dna.data motif.data (dna.length + 1) i j = _
  simp only [show ∀ s : String, s.length = s.data.length from fun _ => rfl] at hj ⊢
  rw [mmGo]
  simp only [min_mismatches,
    show ∀ s : String, s.length = s.data.length from fun _ => rfl]
  split_ifs with hc1 hc2 hc3
  · rfl
  · rfl
  all_goals {
    have hjlt : j < motif.data.length := Nat.lt_of_le_of_ne hj hc1
    have hilt : i < dna.data.length := by omega
    rw [mmGo_congr dna.data motif.data dna.data.length (dna.data.length + 1) (i+1) (j+1)
          hjlt (by omega) (by omega),
        mmGo_congr dna.data motif.data dna.data.length (dna.data.length + 1) (i+1) j
          hj (by omega) (by omega)] }

/-- Witness for C6 at a concrete input. -/
theorem claim_C6_witness :
    (0 ≤ "G".length) ∧
    min_mismatches "AG" "G" 0 0 =
      (if 0 = "G".length then 0
       else if "AG".length < 0 + ("G".length - 0) then ⊤
       else
         min ((if "AG".data.getD 0 ' ' = "G".data.getD 0 ' ' then 0 else 1)
               + min_mismatches "AG" "G" 1 1)
             (min_mismatches "AG" "G" 1 0)) :=
  ⟨by omega, claim_C6 "AG" "G" 0 0 (by omega)⟩

/-- Invariant-preservation proof for the prefix-table loop of `kmp_search`. -/
theorem lpsGo_ok (p : List Char) :
    ∀ fuel lps length i,
    lps.length = p.length →
    1 ≤ i → i ≤ p.length → length < i →
    sufpre p p length i →
    (∀ k, k < i → LpsEntry p k (lps.getD k 0)) →
    (∀ b, length < b → b < i → sufpre p p b i → i < p.length →
       p.getD b ' ' ≠ p.getD i ' ') →
    2 * (p.length - i) + length < fuel →
    LpsOk p (lpsGo p fuel lps length i) := by
  intro fuel
  induction fuel with
  | zero => intro lps length i _ _ _ _ _ _ _ hf; omega
  | succ f ih =>
    intro lps length i hl h1 h2 h3 hsuf hent hC hf
    rw [lpsGo]
    by_cases hi : i < p.length
    · rw [if_pos hi]
      by_cases ha : p.getD i ' ' = p.getD length ' '
      · rw [if_pos ha]
        have hmax : ∀ b, b ≤ i → matchAt p p (i + 1 - b) b → b ≤ length + 1 := by
          intro b hb hmb
          by_contra hgt
          push_neg at hgt
          have hb1 : 1 ≤ b := by omega
          have hsb : sufpre p p b (i+1) := ⟨by omega, hmb⟩
          have hsb2 : sufpre p p ((b-1)+1) (i+1) := by
            rwa [show b - 1 + 1 = b from by omega]
          obtain ⟨hsb3, hcb⟩ := sufpre_shrink hsb2
          exact hC (b-1) (by omega) (by omega) hsb3 hi (by rw [← hcb])
        apply ih (lps.set i (length+1)) (length+1) (i+1)
        · rw [List.length_set]; exact hl
        · omega
        · omega
        · omega
        · exact sufpre_extend hsuf ha
        · intro k hk
          rcases Nat.lt_or_ge k i with hk2 | hk2
          · rw [getD_set_ne _ _ _ _ _ (by omega)]
            exact hent k hk2
          · have hk3 : k = i := by omega
            subst hk3
            rw [getD_set_self _ _ _ _ (by rw [hl]; exact hi)]
            exact ⟨by omega, (sufpre_extend hsuf ha).2, hmax⟩
        · intro b hb1 hb2 hsb _
          exact absurd (hmax b (by omega) hsb.2) (by omega)
        · omega
      · rw [if_neg ha]
        by_cases hz : length ≠ 0
        · rw [if_pos hz]
          obtain ⟨he1, he2, he3⟩ := hent (length - 1) (by omega)
          rw [show length - 1 + 1 = length from by omega] at he2 he3
          apply ih lps (lps.getD (length-1) 0) i hl h1 h2 (by omega)
          · exact sufpre_compose hsuf he2 (by omega)
          · exact hent
          · intro b hb1 hb2 hsb hi2
            rcases Nat.lt_trichotomy b length with hbl | hbl | hbl
            · have hbord := border_of_two hsb hsuf (by omega)
              exact absurd (he3 b (by omega) hbord) (by omega)
            · subst hbl
              exact fun h => ha h.symm
            · exact hC b hbl hb2 hsb hi2
          · omega
        · rw [if_neg hz]
          push_neg at hz
          subst hz
          have hmax : ∀ b, b ≤ i → matchAt p p (i + 1 - b) b → b ≤ 0 := by
            intro b hb hmb
            by_contra hgt
            push_neg at hgt
            have hsb2 : sufpre p p ((b-1)+1) (i+1) := by
              rw [show b - 1 + 1 = b from by omega]
              exact ⟨by omega, hmb⟩
            obtain ⟨hsb3, hcb⟩ := sufpre_shrink hsb2
            rcases Nat.lt_or_ge 0 (b - 1) with hb2 | hb2
            · exact hC (b-1) (by omega) (by omega) hsb3 hi (by rw [← hcb])
            · have hb0 : b - 1 = 0 := by omega
              rw [hb0] at hcb
              exact ha hcb
          apply ih (lps.set i 0) 0 (i+1)
          · rw [List.length_set]; exact hl
          · omega
          · omega
          · omega
          · exact sufpre_zero p p (i+1)
          · intro k hk
            rcases Nat.lt_or_ge k i with hk2 | hk2
            · rw [getD_set_ne _ _ _ _ _ (by omega)]
              exact hent k hk2
            · have hk3 : k = i := by omega
              subst hk3
              rw [getD_set_self _ _ _ _ (by rw [hl]; exact hi)]
              exact ⟨by omega, matchAt_zero p p _, hmax⟩
          · intro b hb1 hb2 hsb _
            exact absurd (hmax b (by omega) hsb.2) (by omega)
          · omega
    · rw [if_neg hi]
      have hieq : i = p.length := by omega
      exact ⟨hl, fun k hk => hent k (by omega)⟩

/-- The table built by `kmp_search` is a correct prefix-function table. -/
theorem computeLps_ok (p : List Char) (hp : p ≠ []) : LpsOk p (computeLps p) := by
  have hm : 1 ≤ p.length := List.length_pos.mpr hp
  apply lpsGo_ok p (2 * p.length + 1) (List.replicate p.length 0) 0 1
  · exact List.length_replicate _ _
  · omega
  · omega
  · omega
  · exact sufpre_zero p p 1
  · intro k hk
    have hk0 : k = 0 := by omega
    subst hk0
    rw [getD_replicate]
    refine ⟨by omega, matchAt_zero p p _, fun b hb _ => by omega⟩
  · intro b hb1 hb2 _ _
    omega
  · omega

theorem getD_take (l : List Char) (n x : Nat) (d : Char) (h : x < n) :
    (l.take n).getD x d = l.getD x d := by
  rcases Nat.lt_or_ge x l.length with h2 | h2
  · rw [List.getD_eq_getElem _ _ (by rw [List.length_take]; omega),
        List.getD_eq_getElem _ _ h2]
    exact List.getElem_take l
  · rw [List.getD_eq_default _ _ (by rw [List.length_take]; omega),
        List.getD_eq_default _ _ h2]

theorem getD_drop (l : List Char) (s x : Nat) (d : Char) :
    (l.drop s).getD x d = l.getD (s + x) d := by
  rcases Nat.lt_or_ge (s + x) l.length with h2 | h2
  · rw [List.getD_eq_getElem _ _ (by rw [List.length_drop]; omega),
        List.getD_eq_getElem _ _ h2]
    exact List.getElem_drop l
  · rw [List.getD_eq_default _ _ (by rw [List.length_drop]; omega),
        List.getD_eq_default _ _ h2]

/-- The Python slice test `text[s:s+len(p)] == p` is equivalent to an
in-bounds pointwise occurrence of `p` at offset `s` (for non-empty `p`). -/
theorem slice_eq_iff (t p : List Char) (hp : p ≠ []) (s : Nat) :
    ((t.drop s).take p.length = p) ↔
      (s + p.length ≤ t.length ∧ matchAt t p s p.length) := by
  have hm : 1 ≤ p.length := List.length_pos.mpr hp
  constructor
  · intro h
    have hlen : ((t.drop s).take p.length).length = p.length := by rw [h]
    rw [List.length_take, List.length_drop] at hlen
    have hple : p.length ≤ t.length - s := by omega
    have hsn : s + p.length ≤ t.length := by omega
    refine ⟨hsn, fun x hx => ?_⟩
    have e := congrArg (fun l => l.getD x ' ') h
    simp only at e
    rw [getD_take _ _ _ _ hx, getD_drop] at e
    exact e
  · rintro ⟨hsn, hmm⟩
    apply List.ext_getElem
    · rw [List.length_take, List.length_drop]; omega
    · intro i h1 h2
      have hi : i < p.length := h2
      have e : ((t.drop s).take p.length).getD i ' ' = p.getD i ' ' := by
        rw [getD_take _ _ _ _ hi, getD_drop]
        exact hmm i hi
      rwa [List.getD_eq_getElem _ _ h1, List.getD_eq_getElem _ _ h2] at e

theorem filter_range_congr_above (f : Nat → Bool) (a : Nat) :
    ∀ k, (∀ s, a ≤ s → s < a + k → f s = false) →
    (List.range (a + k)).filter f = (List.range a).filter f := by
  intro k
  induction k with
  | zero => intro _; rfl
  | succ k ih =>
    intro h
    rw [show a + (k+1) = (a+k) + 1 from rfl, List.range_succ, List.filter_append]
    have hk : f (a+k) = false := h (a+k) (by omega) (by omega)
    simp [hk]
    exact ih (fun s h1 h2 => h s h1 (by omega))

theorem filter_range_succ (f : Nat → Bool) (x : Nat) :
    (List.range (x+1)).filter f
      = (List.range x).filter f ++ (if f x then [x] else []) := by
  rw [List.range_succ, List.filter_append]
  congr 1
  simp [List.filter_singleton]

theorem occb_true_iff (t p : List Char) (hp : p ≠ []) (s : Nat) :
    occb t p s = true ↔ (s + p.length ≤ t.length ∧ matchAt t p s p.length) := by
  rw [occb, decide_eq_true_eq]
  exact slice_eq_iff t p hp s

theorem acc_ext_true (t p : List Char) (i : Nat)
    (hocc : occb t p (i + 1 - p.length) = true) (hmle : p.length ≤ i + 1) :
    (List.range (i + 1 + 1 - p.length)).filter (occb t p)
      = (List.range (i + 1 - p.length)).filter (occb t p) ++ [i + 1 - p.length] := by
  rw [show i + 1 + 1 - p.length = (i + 1 - p.length) + 1 from by omega,
      filter_range_succ, hocc]
  rfl

theorem acc_ext_none (t p : List Char) (i : Nat)
    (h : p.length ≤ i + 1 → occb t p (i + 1 - p.length) = false) :
    (List.range (i + 1 + 1 - p.length)).filter (occb t p)
      = (List.range (i + 1 - p.length)).filter (occb t p) := by
  rcases le_or_lt p.length (i+1) with hle | hlt
  · rw [show i + 1 + 1 - p.length = (i + 1 - p.length) + 1 from by omega,
        filter_range_succ, h hle]
    simp
  · rw [show i + 1 + 1 - p.length = 0 from by omega,
        show i + 1 - p.length = 0 from by omega]

/-- Invariant-preservation proof for the scan loop of `kmp_search`: from a
state satisfying the loop invariant, the loop returns exactly the occurrence
offsets of `p` in `t`, in ascending order. -/
theorem kmpGo_ok (t p : List Char) (lps : List Nat)
    (hlps : LpsOk p lps) (hp : p ≠ []) :
    ∀ fuel i j acc,
    j ≤ i → i ≤ t.length → j < p.length →
    matchAt t p (i - j) j →
    acc = (List.range (i + 1 - p.length)).filter (occb t p) →
    (∀ k, j < k → k < p.length → sufpre t p k i → i < t.length →
       p.getD k ' ' ≠ t.getD i ' ') →
    2 * (t.length - i) + j < fuel →
    kmpGo t p lps fuel i j acc
      = (List.range (t.length + 1 - p.length)).filter (occb t p) := by
  have hm1 : 1 ≤ p.length := List.length_pos.mpr hp
  intro fuel
  induction fuel with
  | zero => intro i j acc _ _ _ _ _ _ hf; omega
  | succ f ih =>
    intro i j acc hji hin hjm hmatch hacc hC hf
    rw [kmpGo]
    by_cases hi : i < t.length
    · rw [if_pos hi]
      by_cases hc : p.getD j ' ' = t.getD i ' '
      · -- character match: positions advance to (i+1, j+1)
        simp only [if_pos hc]
        have hmatch2 : matchAt t p (i - j) (j+1) := by
          refine matchAt_extend hmatch ?_
          rw [show i - j + j = i from by omega]
          exact hc.symm
        have hsp2 : sufpre t p (j+1) (i+1) :=
          ⟨by omega, by rw [show i + 1 - (j+1) = i - j from by omega]; exact hmatch2⟩
        have hNoHigh : ∀ k, j + 1 < k → k ≤ p.length → ¬ sufpre t p k (i+1) := by
          intro k hk1 hk2 hsk
          have hs2 : sufpre t p ((k-1)+1) (i+1) := by
            rwa [show k - 1 + 1 = k from by omega]
          obtain ⟨hs3, hcb⟩ := sufpre_shrink hs2
          exact hC (k-1) (by omega) (by omega) hs3 hi hcb.symm
        by_cases hjm2 : j + 1 = p.length
        · rw [if_pos hjm2]
          have hmocc : matchAt t p (i + 1 - p.length) p.length := by
            rw [show i + 1 - p.length = i - j from by omega, ← hjm2]
            exact hmatch2
          have hoccb : occb t p (i + 1 - p.length) = true :=
            (occb_true_iff t p hp _).mpr ⟨by omega, hmocc⟩
          obtain ⟨hl1, hl2, hl3⟩ := hlps.2 j (by omega)
          rw [show j + 1 - 1 = j from rfl]
          apply ih (i+1) (lps.getD j 0) _
          · omega
          · omega
          · omega
          · exact (sufpre_compose hsp2 hl2 (by omega)).2
          · rw [show i + 1 - (j + 1) = i + 1 - p.length from by omega, hacc,
                ← acc_ext_true t p i hoccb (by omega)]
          · intro k hk1 hk2 hsk _
            exfalso
            have hspm : sufpre t p p.length (i+1) := ⟨by omega, hmocc⟩
            have hbord := border_of_two hsk hspm (by omega)
            have hble := hl3 k (by omega) (by
              rw [show j + 1 - k = p.length - k from by omega]
              exact hbord)
            omega
          · omega
        · rw [if_neg hjm2]
          have hnoend : p.length ≤ i + 1 → occb t p (i + 1 - p.length) = false := by
            intro hmle
            rw [← Bool.not_eq_true, occb_true_iff t p hp]
            rintro ⟨h1, h2⟩
            exact hNoHigh p.length (by omega) (le_refl _) ⟨by omega, h2⟩
          by_cases helim : i + 1 < t.length ∧ ¬ p.getD (j+1) ' ' = t.getD (i+1) ' '
          · rw [if_pos helim, if_pos (by omega : ¬ j + 1 = 0)]
            obtain ⟨hl1, hl2, hl3⟩ := hlps.2 j (by omega)
            rw [show j + 1 - 1 = j from rfl]
            apply ih (i+1) (lps.getD j 0) acc
            · omega
            · omega
            · omega
            · exact (sufpre_compose hsp2 hl2 (by omega)).2
            · rw [acc_ext_none t p i hnoend]
              exact hacc
            · intro k hk1 hk2 hsk hi2
              rcases Nat.lt_trichotomy k (j+1) with hkj | hkj | hkj
              · have hbord := border_of_two hsk hsp2 (by omega)
                have hble := hl3 k (by omega) hbord
                omega
              · subst hkj
                exact helim.2
              · exact absurd hsk (hNoHigh k hkj (by omega))
            · omega
          · rw [if_neg helim]
            apply ih (i+1) (j+1) acc
            · omega
            · omega
            · omega
            · rw [show i + 1 - (j+1) = i - j from by omega]
              exact hmatch2
            · rw [acc_ext_none t p i hnoend]
              exact hacc
            · intro k hk1 hk2 hsk _
              exact absurd hsk (hNoHigh k (by omega) (by omega))
            · omega
      · -- character mismatch at (i, j)
        simp only [if_neg hc]
        rw [if_neg (by omega : ¬ j = p.length)]
        rw [if_pos (⟨hi, hc⟩ : i < t.length ∧ ¬ p.getD j ' ' = t.getD i ' ')]
        by_cases hj0 : ¬ j = 0
        · rw [if_pos hj0]
          obtain ⟨hl1, hl2, hl3⟩ := hlps.2 (j-1) (by omega)
          rw [show j - 1 + 1 = j from by omega] at hl2 hl3
          apply ih i (lps.getD (j-1) 0) acc
          · omega
          · exact hin
          · omega
          · exact (sufpre_compose ⟨hji, hmatch⟩ hl2 (by omega)).2
          · exact hacc
          · intro k hk1 hk2 hsk hi2
            rcases Nat.lt_trichotomy k j with hkj | hkj | hkj
            · have hbord := border_of_two hsk ⟨hji, hmatch⟩ (by omega)
              have hble := hl3 k (by omega) hbord
              omega
            · subst hkj
              exact hc
            · exact hC k hkj hk2 hsk hi2
          · omega
        · rw [if_neg hj0]
          push_neg at hj0
          subst hj0
          have hnoend : p.length ≤ i + 1 → occb t p (i + 1 - p.length) = false := by
            intro hmle
            rw [← Bool.not_eq_true, occb_true_iff t p hp]
            rintro ⟨h1, h2⟩
            have hs2 : sufpre t p ((p.length - 1)+1) (i+1) := by
              rw [show p.length - 1 + 1 = p.length from by omega]
              exact ⟨by omega, h2⟩
            obtain ⟨hs3, hcb⟩ := sufpre_shrink hs2
            rcases Nat.lt_or_ge 0 (p.length - 1) with hp2 | hp2
            · exact hC (p.length - 1) (by omega) (by omega) hs3 hi hcb.symm
            · have hpl1 : p.length = 1 := by omega
              apply hc
              rw [show (0:Nat) = p.length - 1 from by omega]
              exact hcb.symm
          apply ih (i+1) 0 acc
          · omega
          · omega
          · omega
          · exact matchAt_zero t p _
          · rw [acc_ext_none t p i hnoend]
            exact hacc
          · intro k hk1 hk2 hsk hi2
            exfalso
            have hs2 : sufpre t p ((k-1)+1) (i+1) := by
              rwa [show k - 1 + 1 = k from by omega]
            obtain ⟨hs3, hcb⟩ := sufpre_shrink hs2
            rcases Nat.lt_or_ge 0 (k - 1) with hk3 | hk3
            · exact hC (k-1) (by omega) (by omega) hs3 hi hcb.symm
            · apply hc
              rw [show (0:Nat) = k - 1 from by omega]
              exact hcb.symm
          · omega
    · rw [if_neg hi]
      have hieq : i = t.length := by omega
      subst hieq
      exact hacc

theorem filter_range_shrink (f : Nat → Bool) (a b : Nat) (hab : a ≤ b)
    (h : ∀ s, a ≤ s → s < b → f s = false) :
    (List.range b).filter f = (List.range a).filter f := by
  have h2 := filter_range_congr_above f a (b - a) (fun s h1 h2 => h s h1 (by omega))
  rwa [show a + (b - a) = b from by omega] at h2

/-- Functional correctness of `kmp_search`: it returns the ascending list of
all start offsets whose slice equals the pattern, except that an empty
pattern (or empty text) yields the empty list. -/
theorem kmp_search_eq (text pattern : String) :
    kmp_search text pattern =
      if pattern.data = [] then []
      else (List.range text.length).filter
        (fun s => decide ((text.data.drop s).take pattern.length = pattern.data)) := by
  by_cases hp : pattern.data = []
  · simp [kmp_search, hp]
  · rw [if_neg hp]
    by_cases ht : text.data = []
    · rw [kmp_search, if_pos (Or.inr ht)]
      have h0 : text.length = 0 := by
        rw [show text.length = text.data.length from rfl, ht]
        rfl
      rw [h0]
      rfl
    · rw [kmp_search, if_neg (by simp [hp, ht])]
      show kmpGo text.data pattern.data (computeLps pattern.data)
            (2 * text.length + 1) 0 0 []
          = (List.range text.length).filter (occb text.data pattern.data)
      have hlps := computeLps_ok pattern.data hp
      have hm1 : 1 ≤ pattern.data.length := List.length_pos.mpr hp
      have hn1 : text.length = text.data.length := rfl
      rw [kmpGo_ok text.data pattern.data (computeLps pattern.data) hlps hp
            (2 * text.length + 1) 0 0 [] (le_refl 0) (Nat.zero_le _) hm1
            (matchAt_zero _ _ _)
            (by rw [show 0 + 1 - pattern.data.length = 0 from by omega]; rfl)
            (fun k hk1 _ hsk _ => by
              exfalso
              have := hsk.1
              omega)
            (by rw [hn1]; omega)]
      rw [hn1]
      refine (filter_range_shrink (occb text.data pattern.data)
          (text.data.length + 1 - pattern.data.length) text.data.length
          (by omega) ?_).symm
      intro s h1 h2
      rw [← Bool.not_eq_true, occb_true_iff _ _ hp]
      rintro ⟨hb1, _⟩
      omega

theorem filterMap_if_eq_filter {α : Type} (c : α → Bool) (l : List α) :
    l.filterMap (fun a => if c a then some a else none) = l.filter c := by
  induction l with
  | nil => rfl
  | cons a l ih =>
    by_cases h : c a <;> simp [List.filterMap_cons, List.filter_cons, h, ih]

theorem hammingZip_eq_zero_iff (s p : List Char) (h : s.length = p.length) :
    hammingZip s p = 0 ↔ s = p := by
  rw [hammingZip, List.countP_eq_zero]
  constructor
  · intro hall
    apply List.ext_getElem h
    intro i h1 h2
    have hmem : (s[i], p[i]) ∈ s.zip p := by
      rw [List.mem_iff_getElem]
      refine ⟨i, by rw [List.length_zip]; omega, ?_⟩
      exact List.getElem_zip
    have := hall _ hmem
    simpa using this
  · rintro rfl
    intro cc hcc
    obtain ⟨i, hi, heq⟩ := List.getElem_of_mem hcc
    rw [List.getElem_zip] at heq
    simp [← heq]

/-- For a window fully inside the text, zero Hamming distance means the
window equals the pattern. -/
theorem hamming_window_zero (t p : List Char) (i : Nat) (hin : i + p.length ≤ t.length) :
    (hammingZip ((t.drop i).take p.length) p = 0)
      ↔ ((t.drop i).take p.length = p) := by
  apply hammingZip_eq_zero_iff
  rw [List.length_take, List.length_drop]
  omega

/-- Correctness of the fuzzy scanner at distance 0: it reports exactly the
exact-match windows, each with score 0. -/
theorem fuzzy_zero_eq (text pattern : String) (hp : pattern.data ≠ []) :
    (fuzzy_regex_search text pattern 0).map MatchResult.start_pos
      = kmp_search text pattern := by
  rw [kmp_search_eq, if_neg hp]
  show (List.filterMap _ _).map _ = _
  rw [List.map_filterMap]
  have hstep : ∀ i ∈ List.range (text.length + 1 - pattern.length),
      (Option.map MatchResult.start_pos
        (if hammingZip ((text.data.drop i).take pattern.length) pattern.data ≤ 0 then
          some ⟨i, i + pattern.length,
                hammingZip ((text.data.drop i).take pattern.length) pattern.data,
                "fuzzy_regex",
                toString (hammingZip ((text.data.drop i).take pattern.length) pattern.data)
                  ++ " mismatches"⟩
         else none))
      = (fun s => if occb text.data pattern.data s then some s else none) i := by
    intro i hi
    rw [List.mem_range] at hi
    have hin : i + pattern.data.length ≤ text.data.length := by
      have h1 : pattern.data.length = pattern.length := rfl
      have h2 : text.data.length = text.length := rfl
      have hm1 : 1 ≤ pattern.data.length := List.length_pos.mpr hp
      omega
    by_cases hzero : hammingZip ((text.data.drop i).take pattern.length) pattern.data = 0
    · rw [if_pos (by omega)]
      have hoc : occb text.data pattern.data i = true := by
        rw [occb, decide_eq_true_eq]
        exact (hamming_window_zero text.data pattern.data i hin).mp hzero
      simp [hoc]
    · rw [if_neg (by omega)]
      have hoc : occb text.data pattern.data i = false := by
        rw [← Bool.not_eq_true, occb, decide_eq_true_eq]
        intro hcontra
        exact hzero ((hamming_window_zero text.data pattern.data i hin).mpr hcontra)
      simp [hoc]
  rw [List.filterMap_congr hstep, filterMap_if_eq_filter]
  show (List.range (text.data.length + 1 - pattern.data.length)).filter
        (occb text.data pattern.data)
      = (List.range text.data.length).filter (occb text.data pattern.data)
  have hm1 : 1 ≤ pattern.data.length := List.length_pos.mpr hp
  refine (filter_range_shrink (occb text.data pattern.data)
      (text.data.length + 1 - pattern.data.length) text.data.length (by omega) ?_).symm
  intro s h1 h2
  rw [← Bool.not_eq_true, occb_true_iff _ _ hp]
  rintro ⟨hb1, _⟩
  omega

theorem fuzzy_zero_scores (text pattern : String) :
    ∀ r ∈ fuzzy_regex_search text pattern 0, r.score = 0 := by
  intro r hr
  rw [fuzzy_regex_search] at hr
  simp only [List.mem_filterMap, List.mem_range] at hr
  obtain ⟨i, _, heq⟩ := hr
  by_cases hz : hammingZip ((text.data.drop i).take pattern.length) pattern.data ≤ 0
  · rw [if_pos hz] at heq
    obtain rfl := Option.some_injective _ heq
    simpa using hz
  · rw [if_neg hz] at heq
    exact absurd heq (by simp)

/-- Claim C1: `kmp_search` returns exactly the ascending sequence of start
offsets whose slice equals the pattern, and the empty sequence when the
pattern or the text is empty. -/
theorem claim_C1 (text pattern : String) :
    kmp_search text pattern =
      if pattern.data = [] then []
      else (List.range text.length).filter
        (fun s => decide ((text.data.drop s).take pattern.length = pattern.data)) :=
  kmp_search_eq text pattern

/-- Claim C2: for a valid worker count, the batch dispatcher returns, in input
order, exactly the per-corpus `kmp_search` results, independently of the
worker count. -/
theorem claim_C2 (texts : List String) (pattern : String) (n_workers : Int)
    (hne : texts ≠ []) (hw : 1 ≤ n_workers) :
    parallel_search texts pattern n_workers
        = Except.ok (texts.map fun t => kmp_search t pattern) ∧
    ∀ (i : Nat), i < texts.length →
      (texts.map fun t => kmp_search t pattern).getD i []
        = kmp_search (texts.getD i "") pattern := by
  constructor
  · rw [parallel_search, if_neg (by omega)]
  · intro i hi
    rw [List.getD_eq_getElem _ _ (by simpa using hi), List.getD_eq_getElem _ _ hi,
        List.getElem_map]

/-- Witness for C2 at a concrete batch. -/
theorem claim_C2_witness :
    parallel_search ["ab", "b"] "b" 4
        = Except.ok ((["ab", "b"] : List String).map fun t => kmp_search t "b") ∧
    ((["ab", "b"] : List String).map fun t => kmp_search t "b").getD 0 []
        = kmp_search ((["ab", "b"] : List String).getD 0 "") "b" :=
  ⟨(claim_C2 ["ab", "b"] "b" 4 (by decide) (by omega)).1,
   (claim_C2 ["ab", "b"] "b" 4 (by decide) (by omega)).2 0 (by decide)⟩

/-- Counterexample to claim C5 as stated: with an empty pattern the fuzzy
scanner reports every offset of `"a"` while `kmp_search` returns nothing. -/
theorem claim_C5_counterexample :
    0 ∈ (fuzzy_regex_search "a" "" 0).map MatchResult.start_pos ∧
    0 ∉ kmp_search "a" "" := by
  constructor
  · decide
  · decide

/-- Amended C5: for a non-empty pattern, the fuzzy scanner at distance 0
reports exactly the `kmp_search` offsets, each with score 0. -/
theorem claim_C5_amended (text pattern : String) (hp : pattern ≠ "") :
    (fuzzy_regex_search text pattern 0).map MatchResult.start_pos
        = kmp_search text pattern ∧
    ∀ r ∈ fuzzy_regex_search text pattern 0, r.score = 0 := by
  have hpd : pattern.data ≠ [] := by
    intro h
    apply hp
    cases pattern with
    | mk d => simp at h; simp [h]
  exact ⟨fuzzy_zero_eq text pattern hpd, fuzzy_zero_scores text pattern⟩

/-- Witness for amended C5 at a concrete input. -/
theorem claim_C5_amended_witness :
    (fuzzy_regex_search "ABABDABACDABABCABAB" "ABABCABAB" 0).map MatchResult.start_pos
        = kmp_search "ABABDABACDABABCABAB" "ABABCABAB" ∧
    ∀ r ∈ fuzzy_regex_search "ABABDABACDABABCABAB" "ABABCABAB" 0, r.score = 0 :=
  claim_C5_amended "ABABDABACDABABCABAB" "ABABCABAB" (by decide)

/-- Claim C8: a worker count below 1 makes the batch dispatcher fail with the
pool-validation error instead of returning a result. -/
theorem claim_C8 (texts : List String) (pattern : String) (n_workers : Int)
    (hw : n_workers ≤ 0) :
    parallel_search texts pattern n_workers
      = Except.error "Number of processes must be at least 1" := by
  rw [parallel_search, if_pos (by omega)]

/-- Witness for C8 at worker count 0. -/
theorem claim_C8_witness :
    parallel_search ["abc"] "a" 0
      = Except.error "Number of processes must be at least 1" :=
  claim_C8 ["abc"] "a" 0 (by omega)

/-- Counterexample to claim C10 as stated: `analyze_all` with an empty
pattern list fails (the source evaluates `patterns[0]`). -/
theorem claim_C10_counterexample :
    analyze_all "abc" [] 2 = Except.error "IndexError: list index out of range" :=
  rfl

/-- Amended C10: apart from the empty-pattern-list `IndexError` in
`analyze_all`, the orchestrator always returns a result (and the other core
operations are total functions of their inputs). -/
theorem claim_C10_amended (text : String) (patterns : List String) (d : Nat)
    (hne : patterns ≠ []) :
    ∃ r, analyze_all text patterns d = Except.ok r := by
  match patterns, hne with
  | p0 :: rest, _ => exact ⟨_, rfl⟩

/-- Witness for amended C10. -/
theorem claim_C10_amended_witness :
    ∃ r, analyze_all "ab" ["a"] 2 = Except.ok r :=
  claim_C10_amended "ab" ["a"] 2 (by decide)

theorem dna_motif_start0 :
    min_mismatches "AGCTTAGCTTAGCTTAGCTTA" "GATTACA" 0 0 = 0 := by
  refine le_antisymm ?_ (zero_le _)
  have hd : min_mismatches "AGCTTAGCTTAGCTTAGCTTA" "GATTACA" 0 0
      = mmGo "AGCTTAGCTTAGCTTAGCTTA".data "GATTACA".data 22 0 0 := rfl
  rw [hd]
  calc mmGo "AGCTTAGCTTAGCTTAGCTTA".data "GATTACA".data 22 0 0
      _ ≤ mmGo "AGCTTAGCTTAGCTTAGCTTA".data "GATTACA".data 21 1 0 := mmGo_le_skip _ _ 21 0 0 (by decide) (by decide)
      _ ≤ mmGo "AGCTTAGCTTAGCTTAGCTTA".data "GATTACA".data 20 2 1 := mmGo_le_match0 _ _ 20 1 0 (by decide) (by decide) (by decide)
      _ ≤ mmGo "AGCTTAGCTTAGCTTAGCTTA".data "GATTACA".data 19 3 1 := mmGo_le_skip _ _ 19 2 1 (by decide) (by decide)
      _ ≤ mmGo "AGCTTAGCTTAGCTTAGCTTA".data "GATTACA".data 18 4 1 := mmGo_le_skip _ _ 18 3 1 (by decide) (by decide)
      _ ≤ mmGo "AGCTTAGCTTAGCTTAGCTTA".data "GATTACA".data 17 5 1 := mmGo_le_skip _ _ 17 4 1 (by decide) (by decide)
      _ ≤ mmGo "AGCTTAGCTTAGCTTAGCTTA".data "GATTACA".data 16 6 2 := mmGo_le_match0 _ _ 16 5 1 (by decide) (by decide) (by decide)
      _ ≤ mmGo "AGCTTAGCTTAGCTTAGCTTA".data "GATTACA".data 15 7 2 := mmGo_le_skip _ _ 15 6 2 (by decide) (by decide)
      _ ≤ mmGo "AGCTTAGCTTAGCTTAGCTTA".data "GATTACA".data 14 8 2 := mmGo_le_skip _ _ 14 7 2 (by decide) (by decide)
      _ ≤ mmGo "AGCTTAGCTTAGCTTAGCTTA".data "GATTACA".data 13 9 3 := mmGo_le_match0 _ _ 13 8 2 (by decide) (by decide) (by decide)
      _ ≤ mmGo "AGCTTAGCTTAGCTTAGCTTA".data "GATTACA".data 12 10 4 := mmGo_le_match0 _ _ 12 9 3 (by decide) (by decide) (by decide)
      _ ≤ mmGo "AGCTTAGCTTAGCTTAGCTTA".data "GATTACA".data 11 11 5 := mmGo_le_match0 _ _ 11 10 4 (by decide) (by decide) (by decide)
      _ ≤ mmGo "AGCTTAGCTTAGCTTAGCTTA".data "GATTACA".data 10 12 5 := mmGo_le_skip _ _ 10 11 5 (by decide) (by decide)
      _ ≤ mmGo "AGCTTAGCTTAGCTTAGCTTA".data "GATTACA".data 9 13 6 := mmGo_le_match0 _ _ 9 12 5 (by decide) (by decide) (by decide)
      _ ≤ mmGo "AGCTTAGCTTAGCTTAGCTTA".data "GATTACA".data 8 14 6 := mmGo_le_skip _ _ 8 13 6 (by decide) (by decide)
      _ ≤ mmGo "AGCTTAGCTTAGCTTAGCTTA".data "GATTACA".data 7 15 6 := mmGo_le_skip _ _ 7 14 6 (by decide) (by decide)
      _ ≤ mmGo "AGCTTAGCTTAGCTTAGCTTA".data "GATTACA".data 6 16 7 := mmGo_le_match0 _ _ 6 15 6 (by decide) (by decide) (by decide)
      _ = 0 := mmGo_base _ _ 5 16 7 (by decide)

/-- Counterexample to claim C4: the scenario result is not empty. -/
theorem claim_C4_counterexample :
    find_dna_motifs "AGCTTAGCTTAGCTTAGCTTA" "GATTACA" 2 ≠ [] := by
  have h : find_dna_motifs "AGCTTAGCTTAGCTTAGCTTA" "GATTACA" 2
      = (List.range (14+1)).filterMap (fun start =>
          let mismatches := min_mismatches "AGCTTAGCTTAGCTTAGCTTA" "GATTACA" start 0
          if mismatches ≤ (((2:Nat)):ℕ∞) then some (start, mismatches) else none) := rfl
  rw [h, List.range_succ_eq_map]
  simp only [List.filterMap_cons, dna_motif_start0]
  norm_num
  exact List.cons_ne_nil _ _

/-- Amended C4: the scenario reports start offset 0 with 0 mismatches first. -/
theorem claim_C4_amended :
    (find_dna_motifs "AGCTTAGCTTAGCTTAGCTTA" "GATTACA" 2).head? = some (0, 0) := by
  have h : find_dna_motifs "AGCTTAGCTTAGCTTAGCTTA" "GATTACA" 2
      = (List.range (14+1)).filterMap (fun start =>
          let mismatches := min_mismatches "AGCTTAGCTTAGCTTAGCTTA" "GATTACA" start 0
          if mismatches ≤ (((2:Nat)):ℕ∞) then some (start, mismatches) else none) := rfl
  rw [h, List.range_succ_eq_map]
  simp only [List.filterMap_cons, dna_motif_start0]
  norm_num

/-- Claim C3: the Wildcard Matcher on text `"abcdefg"` and pattern `"a*b?d"`
(started at positions `(0, 0)`) returns `false`. -/
theorem claim_C3 : wildcard_match "abcdefg" "a*b?d" = false := by decide

/-- Claim C7: a pattern consisting of the single `*` matches every text
(including the empty one); on empty text a pattern matches exactly when it
consists only of `*` symbols; in particular the empty pattern matches only
the empty text. -/
theorem claim_C7 :
    (∀ t : String, wildcard_match t "*" = true)
    ∧ (∀ p : String, (wildcard_match "" p = true ↔ ∀ c ∈ p.data, c = '*'))
    ∧ (∀ t : String, t ≠ "" → wildcard_match t "" = false) := by
  refine ⟨fun t => ?_, fun p => ?_, fun t ht => ?_⟩
  · show wcGo t.data "*".data (t.length + "*".length + 1) 0 0 = true
    exact wcGo_star t.data (t.length + "*".length + 1) 0 (Nat.zero_le _)
      (by
        have e1 : t.length = t.data.length := rfl
        omega)
  · rw [wildcard_empty_text]
    simp [List.all_eq_true]
  · apply wildcard_empty_pattern
    intro hd
    apply ht
    cases t with
    | mk d =>
      simp only at hd
      simp [hd]

/-- Witness for C7 at concrete inputs. -/
theorem claim_C7_witness :
    wildcard_match "xyz" "*" = true
    ∧ (wildcard_match "" "**" = true ↔ ∀ c ∈ "**".data, c = '*')
    ∧ wildcard_match "a" "" = false :=
  ⟨claim_C7.1 "xyz", claim_C7.2.1 "**", claim_C7.2.2 "a" (by decide)⟩

theorem soundW_insert {c : List ((List Char × List Char × Nat × Nat) × Bool)}
    (hc : SoundW c) (t p : List Char) (i j : Nat) {v : Bool}
    (hv : v = wildcard_pure t p i j) :
    SoundW (((t, p, i, j), v) :: c) := by
  intro t2 p2 i2 j2 v2 hlook
  by_cases hbeq : (((t2, p2, i2, j2) : List Char × List Char × Nat × Nat)
      == (t, p, i, j)) = true
  · simp only [List.lookup, hbeq] at hlook
    obtain ⟨h1, h2, h3, h4⟩ : t2 = t ∧ p2 = p ∧ i2 = i ∧ j2 = j := by
      have := eq_of_beq hbeq
      simpa [Prod.ext_iff] using this
    subst h1; subst h2; subst h3; subst h4
    rw [← Option.some_inj.mp hlook]
    exact hv
  · rw [Bool.not_eq_true] at hbeq
    simp only [List.lookup, hbeq] at hlook
    exact hc t2 p2 i2 j2 v2 hlook

theorem soundM_insert {c : List ((List Char × List Char × Nat × Nat) × ℕ∞)}
    (hc : SoundM c) (dna motif : List Char) (i j : Nat) {v : ℕ∞}
    (hv : v = motif_pure dna motif i j) :
    SoundM (((dna, motif, i, j), v) :: c) := by
  intro d2 m2 i2 j2 v2 hlook
  by_cases hbeq : (((d2, m2, i2, j2) : List Char × List Char × Nat × Nat)
      == (dna, motif, i, j)) = true
  · simp only [List.lookup, hbeq] at hlook
    obtain ⟨h1, h2, h3, h4⟩ : d2 = dna ∧ m2 = motif ∧ i2 = i ∧ j2 = j := by
      have := eq_of_beq hbeq
      simpa [Prod.ext_iff] using this
    subst h1; subst h2; subst h3; subst h4
    rw [← Option.some_inj.mp hlook]
    exact hv
  · rw [Bool.not_eq_true] at hbeq
    simp only [List.lookup, hbeq] at hlook
    exact hc d2 m2 i2 j2 v2 hlook

/-- A sound motif cache stays sound through `mdST`, and the returned value is
the pure recursion value, independent of the incoming state. -/
theorem mdST_sound (dna motif : List Char) :
    ∀ fuel i j st,
    j ≤ motif.length →
    dna.length - i < fuel →
    SoundM st.motif_cache →
    (mdST dna motif fuel i j st).1 = motif_pure dna motif i j ∧
    SoundM (mdST dna motif fuel i j st).2.motif_cache := by
  intro fuel
  induction fuel with
  | zero => intro i j st _ hf _; omega
  | succ f ih =>
    intro i j st hj hf hs
    rw [mdST]
    cases hlook : st.motif_cache.lookup (dna, motif, i, j) with
    | some v =>
      simp only [hlook]
      exact ⟨hs dna motif i j v hlook, hs⟩
    | none =>
      simp only [hlook]
      by_cases h1 : j = motif.length
      · have hval : motif_pure dna motif i j = 0 := by
          rw [motif_pure, mmGo, if_pos h1]
        rw [if_pos h1]
        exact ⟨hval.symm, soundM_insert hs dna motif i j hval.symm⟩
      · by_cases h2 : dna.length < i + (motif.length - j)
        · have hval : motif_pure dna motif i j = ⊤ := by
            rw [motif_pure, mmGo, if_neg h1, if_pos h2]
          rw [if_neg h1, if_pos h2]
          exact ⟨hval.symm, soundM_insert hs dna motif i j hval.symm⟩
        · have hjlt : j < motif.length := Nat.lt_of_le_of_ne hj h1
          have hilt : i < dna.length := by omega
          obtain ⟨ih1v, ih1s⟩ := ih (i+1) (j+1) st (by omega) (by omega) hs
          obtain ⟨ih2v, ih2s⟩ :=
            ih (i+1) j (mdST dna motif f (i+1) (j+1) st).2 hj (by omega) ih1s
          have hval :
              min ((if dna.getD i ' ' = motif.getD j ' ' then (0:ℕ∞) else 1)
                    + (mdST dna motif f (i+1) (j+1) st).1)
                  ((mdST dna motif f (i+1) j (mdST dna motif f (i+1) (j+1) st).2).1)
                = motif_pure dna motif i j := by
            rw [ih1v, ih2v]
            conv_rhs => rw [motif_pure, mmGo, if_neg h1, if_neg h2]
            rw [show dna.length - i = dna.length - (i+1) + 1 from by omega]
            rfl
          rw [if_neg h1, if_neg h2]
          exact ⟨hval, soundM_insert ih2s dna motif i j hval⟩

/-- A sound wildcard cache stays sound through `wcST`, and the returned value
is the pure recursion value, independent of the incoming state (the `calls`
counter and the cache only do bookkeeping). -/
theorem wcST_sound (t p : List Char) :
    ∀ fuel i j st,
    i ≤ t.length → j ≤ p.length →
    t.length - i + (p.length - j) < fuel →
    SoundW st.wc_cache →
    (wcST t p fuel i j st).1 = wildcard_pure t p i j ∧
    SoundW (wcST t p fuel i j st).2.wc_cache := by
  intro fuel
  induction fuel with
  | zero => intro i j st _ _ hf _; omega
  | succ f ih =>
    intro i j st hi hj hf hs
    rw [wcST]
    cases hlook : st.wc_cache.lookup (t, p, i, j) with
    | some v =>
      simp only [hlook]
      exact ⟨hs t p i j v hlook, hs⟩
    | none =>
      simp only [hlook]
      by_cases hb1 : i = t.length ∧ j = p.length
      · have hval : wildcard_pure t p i j = true := by
          rw [wildcard_pure, wcGo, if_pos hb1]
        rw [if_pos hb1]
        exact ⟨hval.symm, soundW_insert hs t p i j hval.symm⟩
      · by_cases hb2 : i = t.length
        · have hval : wildcard_pure t p i j = (p.drop j).all (fun c => c = '*') := by
            rw [wildcard_pure, wcGo, if_neg hb1, if_pos hb2]
          rw [if_neg hb1, if_pos hb2]
          exact ⟨hval.symm, soundW_insert hs t p i j hval.symm⟩
        · by_cases hb3 : j = p.length
          · have hval : wildcard_pure t p i j = false := by
              rw [wildcard_pure, wcGo, if_neg hb1, if_neg hb2, if_pos hb3]
            rw [if_neg hb1, if_neg hb2, if_pos hb3]
            exact ⟨hval.symm, soundW_insert hs t p i j hval.symm⟩
          · have hilt : i < t.length := Nat.lt_of_le_of_ne hi hb2
            have hjlt : j < p.length := Nat.lt_of_le_of_ne hj hb3
            by_cases hstar : p.getD j ' ' = '*'
            · have hpure : wildcard_pure t p i j
                  = (wildcard_pure t p i (j+1)
                      || (decide (i < t.length) && wildcard_pure t p (i+1) j)) := by
                conv_lhs => rw [wildcard_pure, wcGo]
                rw [if_neg hb1, if_neg hb2, if_neg hb3, if_pos hstar]
                rw [wcGo_congr t p (t.length - i + (p.length - j))
                      (t.length - i + (p.length - (j+1)) + 1) i (j+1)
                      hi (by omega) (by omega) (by omega)]
                rw [wcGo_congr t p (t.length - i + (p.length - j))
                      (t.length - (i+1) + (p.length - j) + 1) (i+1) j
                      (by omega) hj (by omega) (by omega)]
                rfl
              rw [if_neg hb1, if_neg hb2, if_neg hb3, if_pos hstar]
              obtain ⟨ih1v, ih1s⟩ :=
                ih i (j+1) { st with calls := st.calls + 1 } hi (by omega) (by omega) hs
              by_cases hb : (wcST t p f i (j+1) { st with calls := st.calls + 1 }).1 = true
              · rw [if_pos hb]
                have hval : true = wildcard_pure t p i j := by
                  rw [hpure, ← ih1v, hb]
                  rfl
                exact ⟨hval, soundW_insert ih1s t p i j hval⟩
              · rw [if_neg hb, if_pos hilt]
                have hb0 : (wcST t p f i (j+1) { st with calls := st.calls + 1 }).1 = false := by
                  cases hB : (wcST t p f i (j+1) { st with calls := st.calls + 1 }).1
                  · rfl
                  · exact absurd hB hb
                obtain ⟨ih2v, ih2s⟩ :=
                  ih (i+1) j (wcST t p f i (j+1) { st with calls := st.calls + 1 }).2
                    (by omega) hj (by omega) ih1s
                have hval : (wcST t p f (i+1) j
                    (wcST t p f i (j+1) { st with calls := st.calls + 1 }).2).1
                      = wildcard_pure t p i j := by
                  rw [ih2v, hpure, ← ih1v, hb0]
                  simp [hilt]
                exact ⟨hval, soundW_insert ih2s t p i j hval⟩
            · by_cases hlit : p.getD j ' ' = '?' ∨ p.getD j ' ' = t.getD i ' '
              · have hpure : wildcard_pure t p i j = wildcard_pure t p (i+1) (j+1) := by
                  conv_lhs => rw [wildcard_pure, wcGo]
                  rw [if_neg hb1, if_neg hb2, if_neg hb3, if_neg hstar, if_pos hlit]
                  rw [wcGo_congr t p (t.length - i + (p.length - j))
                        (t.length - (i+1) + (p.length - (j+1)) + 1) (i+1) (j+1)
                        (by omega) (by omega) (by omega) (by omega)]
                  rfl
                rw [if_neg hb1, if_neg hb2, if_neg hb3, if_neg hstar, if_pos hlit]
                obtain ⟨ih1v, ih1s⟩ :=
                  ih (i+1) (j+1) { st with calls := st.calls + 1 }
                    (by omega) (by omega) (by omega) hs
                have hval : (wcST t p f (i+1) (j+1) { st with calls := st.calls + 1 }).1
                    = wildcard_pure t p i j := by
                  rw [ih1v, hpure]
                exact ⟨hval, soundW_insert ih1s t p i j hval⟩
              · have hval : wildcard_pure t p i j = false := by
                  rw [wildcard_pure, wcGo, if_neg hb1, if_neg hb2, if_neg hb3,
                      if_neg hstar, if_neg hlit]
                rw [if_neg hb1, if_neg hb2, if_neg hb3, if_neg hstar, if_neg hlit]
                exact ⟨hval.symm, soundW_insert hs t p i j hval.symm⟩

theorem soundW_nil : SoundW [] := by
  intro t p i j v h
  simp [List.lookup] at h

theorem soundM_nil : SoundM [] := by
  intro dna motif i j v h
  simp [List.lookup] at h

/-- Claim C9: on a fixed input, every matcher returns the same value on two
successive invocations; the hidden state (call counter, memo caches) never
influences the returned value, only bookkeeping.  The wildcard and motif
methods are stated over their state-passing embeddings (for any sound cache
state, covering every reachable state including evictions); `kmp_search` and
`fuzzy_regex_search` read no hidden state at all, so their embeddings are
plain functions of their inputs. -/
theorem claim_C9 (text pattern : String) (i j : Nat) (st : MatcherState)
    (hi : i ≤ text.length) (hj : j ≤ pattern.length)
    (hw : SoundW st.wc_cache) (hm : SoundM st.motif_cache) :
    ((wildcard_match_st text pattern i j st).1
        = wildcard_pure text.data pattern.data i j
      ∧ (wildcard_match_st text pattern i j
            ((wildcard_match_st text pattern i j st).2)).1
        = (wildcard_match_st text pattern i j st).1)
    ∧ ((motif_distance_st text pattern i j st).1
        = motif_pure text.data pattern.data i j
      ∧ (motif_distance_st text pattern i j
            ((motif_distance_st text pattern i j st).2)).1
        = (motif_distance_st text pattern i j st).1)
    ∧ kmp_search text pattern = kmp_search text pattern
    ∧ fuzzy_regex_search text pattern 2 = fuzzy_regex_search text pattern 2 := by
  have e1 : text.length = text.data.length := rfl
  have e2 : pattern.length = pattern.data.length := rfl
  have hw1 := wcST_sound text.data pattern.data (text.length + pattern.length + 1)
    i j st (by omega) (by omega) (by omega) hw
  have hw2 := wcST_sound text.data pattern.data (text.length + pattern.length + 1)
    i j (wcST text.data pattern.data (text.length + pattern.length + 1) i j st).2
    (by omega) (by omega) (by omega) hw1.2
  have hm1 := mdST_sound text.data pattern.data (text.length + 1)
    i j st (by omega) (by omega) hm
  have hm2 := mdST_sound text.data pattern.data (text.length + 1)
    i j (mdST text.data pattern.data (text.length + 1) i j st).2
    (by omega) (by omega) hm1.2
  exact ⟨⟨hw1.1, hw2.1.trans hw1.1.symm⟩, ⟨hm1.1, hm2.1.trans hm1.1.symm⟩, rfl, rfl⟩

/-- Witness for C9 at a concrete input and the freshly initialised state. -/
theorem claim_C9_witness :
    ((wildcard_match_st "ab" "a*" 0 0 ⟨0, 0, 0, [], []⟩).1
        = wildcard_pure "ab".data "a*".data 0 0
      ∧ (wildcard_match_st "ab" "a*" 0 0
            ((wildcard_match_st "ab" "a*" 0 0 ⟨0, 0, 0, [], []⟩).2)).1
        = (wildcard_match_st "ab" "a*" 0 0 ⟨0, 0, 0, [], []⟩).1)
    ∧ ((motif_distance_st "ab" "a*" 0 0 ⟨0, 0, 0, [], []⟩).1
        = motif_pure "ab".data "a*".data 0 0
      ∧ (motif_distance_st "ab" "a*" 0 0
            ((motif_distance_st "ab" "a*" 0 0 ⟨0, 0, 0, [], []⟩).2)).1
        = (motif_distance_st "ab" "a*" 0 0 ⟨0, 0, 0, [], []⟩).1)
    ∧ kmp_search "ab" "a*" = kmp_search "ab" "a*"
    ∧ fuzzy_regex_search "ab" "a*" 2 = fuzzy_regex_search "ab" "a*" 2 :=
  claim_C9 "ab" "a*" 0 0 ⟨0, 0, 0, [], []⟩ (Nat.zero_le _) (Nat.zero_le _)
    soundW_nil soundM_nil

end PatternSuite
